import Mathlib

/-!
Shallow embedding of `streamlit_app.py` (LinkedIn profile post exporter).

Modelling conventions:
* Python/JSON values are the inductive `Val` (dict = association list).
* Python `datetime` values are modelled as `Nat`; `datetime.min` is `0`
  (every Python datetime is `≥ datetime.min`, every `Nat` is `≥ 0`).
* `dateutil.parser.parse` (with its exceptions already collapsed by the
  `try/except` in `parse_post_date`) is an abstract parameter
  `P : String → Option Nat`.
* The network is an abstract parameter `net : Nat → HttpResp` mapping the
  `total_posts` value of a request body to the actor's HTTP response
  (username / limit / token are fixed for one run and hence implicit).
* Python exceptions that can escape a function are modelled with
  `Except String`; a `.error` value is a raised exception carrying the
  message `str(e)` would produce.
-/

namespace LinkedIn

/-- Python/JSON values as they occur in actor responses. -/
inductive Val where
  | vnone : Val
  | vstr : String → Val
  | vint : Int → Val
  | vbool : Bool → Val
  | vlist : List Val → Val
  | vdict : List (String × Val) → Val
deriving Repr

/-- Python truthiness test (`if not value`) for the `Val` universe:
`None`, `""`, `0`, `False`, `[]`, and the empty dict are falsy. -/
def Val.falsy : Val → Bool
  | .vnone => true
  | .vstr s => s == ""
  | .vint n => n == 0
  | .vbool b => !b
  | .vlist xs => xs.isEmpty
  | .vdict kvs => kvs.isEmpty

/-- The single-quote character, used by Python `repr` of strings. -/
def pyQuote : String := String.singleton (Char.ofNat 39)

mutual

/-- Python `repr` of a value (as placed inside `str` of a container).
String escaping inside `repr` is simplified: the strings occurring in
actor records contain no quotes or backslashes. -/
def pyRepr : Val → String
  | .vnone => "None"
  | .vstr s => pyQuote ++ s ++ pyQuote
  | .vint n => toString n
  | .vbool b => if b then "True" else "False"
  | .vlist xs => "[" ++ String.intercalate ", " (pyReprList xs) ++ "]"
  | .vdict kvs => "\x7b" ++ String.intercalate ", " (pyReprKVs kvs) ++ "\x7d"

/-- `repr` of each element of a Python list. -/
def pyReprList : List Val → List String
  | [] => []
  | v :: vs => pyRepr v :: pyReprList vs

/-- `repr` of each `key: value` entry of a Python dict. -/
def pyReprKVs : List (String × Val) → List String
  | [] => []
  | (k, v) :: kvs => (pyQuote ++ k ++ pyQuote ++ ": " ++ pyRepr v) :: pyReprKVs kvs

end

/-- Python `str` of a value: the string itself for `str`, `repr`-style
rendering inside containers. -/
def pyStr : Val → String
  | .vstr s => s
  | v => pyRepr v

/-- Python `v.get(k, d)`: returns the stored value or the default when `v`
is a dict, raises `AttributeError` when `v` is any other value. -/
def pyGetD (v : Val) (k : String) (d : Val) : Except String Val :=
  match v with
  | .vdict kvs => .ok ((kvs.lookup k).getD d)
  | _ => .error "AttributeError"

/-- `parse_post_date(value)` from `streamlit_app.py`: falsy input short-circuits
to `None`; otherwise `dateutil.parser.parse(str(value))` with every exception
collapsed to `None` (the abstract parser `P` already incorporates the
`try/except`). -/
def parse_post_date (P : String → Option Nat) (value : Val) : Option Nat :=
  if value.falsy then none else P (pyStr value)

/-- An HTTP response from the actor: status code, body text, parsed JSON body. -/
structure HttpResp where
  status : Nat
  text : String
  body : Val

/-- `requests.Response.ok`: true iff the status code is below 400. -/
def HttpResp.respOk (r : HttpResp) : Bool := r.status < 400

/-- The item list of a response: the JSON body if it is a list, else `[]`
(`data if isinstance(data, list) else []`). -/
def HttpResp.items (r : HttpResp) : List Val :=
  match r.body with
  | .vlist xs => xs
  | _ => []

/-- The message of the `RuntimeError` raised for a non-ok response:
`f"Apify error {resp.status_code}: {resp.text}"`. -/
def apifyMsg (r : HttpResp) : String :=
  "Apify error " ++ toString r.status ++ ": " ++ r.text

/-- `run_fetch(total_posts)` (inner function of `fetch_posts_bulk`): raises
`RuntimeError(f"Apify error {status}: {text}")` on a non-ok response, else
returns the JSON body coerced to a list. -/
def run_fetch (net : Nat → HttpResp) (total_posts : Nat) : Except String (List Val) :=
  let resp := net total_posts
  if resp.respOk then .ok resp.items
  else .error (apifyMsg resp)

/-- Evaluate an effectful map over a list, left to right, propagating the
first raised exception (a Python list comprehension or loop whose body may
raise). -/
def mapExcept {α β : Type} (f : α → Except String β) : List α → Except String (List β)
  | [] => .ok []
  | a :: l =>
    match f a with
    | .error e => .error e
    | .ok b =>
      match mapExcept f l with
      | .error e => .error e
      | .ok bs => .ok (b :: bs)

/-- The expression `parse_post_date(i.get("posted_at", {}).get("date"))`,
which appears three times in `fetch_posts_bulk`: either of the two `.get`
calls raises `AttributeError` when its receiver is not a dict. -/
def getPostedDate (P : String → Option Nat) (i : Val) : Except String (Option Nat) :=
  match pyGetD i "posted_at" (Val.vdict []) with
  | .error e => .error e
  | .ok pa =>
    match pyGetD pa "date" Val.vnone with
    | .error e => .error e
    | .ok d => .ok (parse_post_date P d)

/-- The retry decision of `fetch_posts_bulk` for a non-empty first batch:
`valid_dates` keeps the successfully parsed dates (a parsed `datetime` is
always truthy, so `[d for d in parsed_dates if d]` is `filterMap id`);
`min(valid_dates)` is `List.min?`; retry iff no date parsed, or the minimum
parsed date is later than `start` and the batch filled at least
`min(target_total, 1000)` items. -/
def retryDecision (P : String → Option Nat) (start : Nat) (target_total : Nat)
    (all_items : List Val) : Except String Bool :=
  match mapExcept (getPostedDate P) all_items with
  | .error e => .error e
  | .ok parsed_dates =>
    let valid_dates := parsed_dates.filterMap id
    match valid_dates.min? with
    | none => .ok true
    | some min_dt =>
        .ok (decide (start < min_dt) && decide (min target_total 1000 ≤ all_items.length))

/-- The range filter of `fetch_posts_bulk`: keep items whose parsed date `dt`
satisfies `start <= dt <= end` (a `None` date is dropped); the date
extraction can raise on malformed records. -/
def filterInRange (P : String → Option Nat) (start end_ : Nat) :
    List Val → Except String (List Val)
  | [] => .ok []
  | p :: ps =>
    match getPostedDate P p with
    | .error e => .error e
    | .ok dt =>
      match filterInRange P start end_ ps with
      | .error e => .error e
      | .ok rest =>
        match dt with
        | some d => if start ≤ d ∧ d ≤ end_ then .ok (p :: rest) else .ok rest
        | none => .ok rest

/-- Key decoration for the final sort (Python's sort computes each key once):
the key is `parse_post_date(...) or datetime.min`, i.e. the parsed date with
default `0`. -/
def decoratePosts (P : String → Option Nat) (l : List Val) :
    Except String (List (Val × Nat)) :=
  mapExcept (fun p =>
    match getPostedDate P p with
    | .error e => .error e
    | .ok dt => .ok (p, dt.getD 0)) l

/-- The ordering realizing `reverse=True` on the decorated list: `a` may come
before `b` iff `b`'s key is at most `a`'s key (descending order; equal keys
compare both ways). CPython's `list.sort` is stable, and a stable sort's
output is uniquely determined by the ordering plus the input order, so the
stable `insertionSort` below computes exactly what `list.sort(key=...,
reverse=True)` computes. -/
def sortRel (a b : Val × Nat) : Prop := b.2 ≤ a.2

instance : DecidableRel sortRel := fun a b => Nat.decLe b.2 a.2

instance : IsTotal (Val × Nat) sortRel := ⟨fun a b => Nat.le_total b.2 a.2⟩

instance : IsTrans (Val × Nat) sortRel := ⟨fun _ _ _ h1 h2 => Nat.le_trans h2 h1⟩

/-- The filter-and-sort tail of `fetch_posts_bulk` applied to the final batch:
filter to the window, then stable-sort descending by key
(`list.sort(key=..., reverse=True)` keeps equal-key items in source order,
which is exactly a stable merge sort with comparator `key b ≤ key a`). -/
def finishBatch (P : String → Option Nat) (start end_ : Nat) (all_items : List Val) :
    Except String (List Val × List Val) :=
  match filterInRange P start end_ all_items with
  | .error e => .error e
  | .ok in_range =>
    match decoratePosts P in_range with
    | .error e => .error e
    | .ok keyed =>
        .ok (all_items, (keyed.insertionSort sortRel).map Prod.fst)

/-- The retry branch of `fetch_posts_bulk`: one additional request with the
higher ceiling `max(10000, target_total * 2)`, whatever its outcome. -/
def fetchRetry (P : String → Option Nat) (net : Nat → HttpResp)
    (start end_ : Nat) (target_total : Nat) :
    List Nat × Except String (List Val × List Val) :=
  match run_fetch net (max 10000 (target_total * 2)) with
  | .error e => ([target_total, max 10000 (target_total * 2)], .error e)
  | .ok second =>
      ([target_total, max 10000 (target_total * 2)], finishBatch P start end_ second)

/-- What `fetch_posts_bulk` does after a successful first request returning
`first`: an empty batch goes straight to filtering; a non-empty batch is
inspected by the retry heuristic, whose trigger leads to exactly one
additional request. -/
def fetchAfterFirst (P : String → Option Nat) (net : Nat → HttpResp)
    (start end_ : Nat) (target_total : Nat) (first : List Val) :
    List Nat × Except String (List Val × List Val) :=
  if first.isEmpty then ([target_total], finishBatch P start end_ first)
  else
    match retryDecision P start target_total first with
    | .error e => ([target_total], .error e)
    | .ok true => fetchRetry P net start end_ target_total
    | .ok false => ([target_total], finishBatch P start end_ first)

/-- `fetch_posts_bulk` instrumented with the list of `total_posts` values of
the network requests it issues (first component). The second component is
the returned pair `(all_items, in_range)` or the raised exception. -/
def fetch_posts_bulk (P : String → Option Nat) (net : Nat → HttpResp)
    (start end_ : Nat) (target_total : Nat) :
    List Nat × Except String (List Val × List Val) :=
  match run_fetch net target_total with
  | .error e => ([target_total], .error e)
  | .ok first => fetchAfterFirst P net start end_ target_total first

/-- The delimiter class `[/?#]` of the username regex. -/
def isDelim (c : Char) : Bool := c == '/' || c == '?' || c == '#'

/-- The literal part of the pattern `linkedin\.com\/in\/([^\/?#]+)`. -/
def patChars : List Char := "linkedin.com/in/".data

/-- `re.search` for the username pattern: scan left to right; at the first
position where the literal prefix matches and at least one non-delimiter
character follows, capture the maximal run of non-delimiter characters. -/
def scanMatch : List Char → Option (List Char)
  | [] => none
  | c :: rest =>
    if patChars.isPrefixOf (c :: rest) then
      let cap := ((c :: rest).drop patChars.length).takeWhile (fun ch => !(isDelim ch))
      if cap.isEmpty then scanMatch rest else some cap
    else scanMatch rest

/-- Python `str.strip` whitespace class (ASCII part). -/
def pyIsSpace (c : Char) : Bool :=
  c == ' ' || c == '\t' || c == '\n' || c == Char.ofNat 13 || c == Char.ofNat 11 ||
    c == Char.ofNat 12

/-- Python `str.strip()`: drop leading and trailing whitespace. -/
def pyStrip (s : List Char) : List Char :=
  ((s.dropWhile pyIsSpace).reverse.dropWhile pyIsSpace).reverse

/-- `extract_username(linkedin_url)`: the captured group of the first regex
match, or the stripped input when there is no match. -/
def extract_username (linkedin_url : String) : String :=
  match scanMatch linkedin_url.data with
  | some seg => String.mk seg
  | none => String.mk (pyStrip linkedin_url.data)

/-- The fixed header row of `posts_to_csv`. -/
def headers : List String :=
  ["Post Date", "posted_at/relative", "url", "Post Type", "Post Content",
   "total reactions", "like", "support", "love", "insightful", "celebrate",
   "comments", "reposts", "funny", "Media Type"]

/-- The loop body of `get_path`: walk the already-split path, returning `""`
as soon as the current value is not a dict or lacks the key. -/
def getPathParts : Val → List String → Val
  | cur, [] => cur
  | cur, part :: rest =>
    match cur with
    | .vdict kvs =>
      match kvs.lookup part with
      | some v => getPathParts v rest
      | none => .vstr ""
    | _ => .vstr ""

/-- The separator character of the dotted paths. -/
def dotChar : Char := Char.ofNat 46

/-- Python `str.split(c)` for a one-character separator: split into segments
between occurrences of `c` (an empty input gives one empty segment, like
`"".split('.')`). -/
def splitOnChar (c : Char) : List Char → List String
  | [] => [""]
  | ch :: rest =>
    if ch == c then "" :: splitOnChar c rest
    else
      match splitOnChar c rest with
      | [] => [String.mk [ch]]
      | seg :: segs => String.mk (ch :: seg.data) :: segs

/-- `get_path(obj, path)` (inner function of `posts_to_csv`): split the
dotted path on `'.'` and walk it. -/
def get_path (obj : Val) (path : String) : Val :=
  getPathParts obj (splitOnChar dotChar path.data)

/-- How `csv.writer` renders one cell: `None` becomes the empty string, any
other value is rendered with `str`. -/
def cellStr : Val → String
  | .vnone => ""
  | v => pyStr v

/-- `csv` QUOTE_MINIMAL: a field is quoted iff it contains the delimiter, the
quote character, or a line-terminator character. -/
def csvNeedsQuote (s : String) : Bool :=
  s.any (fun c => c == ',' || c == '"' || c == '\n' || c == Char.ofNat 13)

/-- One encoded CSV field (quote doubling inside quoted fields). -/
def csvField (s : String) : String :=
  if csvNeedsQuote s then "\"" ++ s.replace "\"" "\"\"" ++ "\"" else s

/-- One encoded CSV row; the default `csv.writer` line terminator is CRLF. -/
def csvRowStr (cells : List String) : String :=
  String.intercalate "," (cells.map csvField) ++ "\r\n"

/-- The whole CSV document for a list of rows. -/
def encodeCsv (rows : List (List String)) : String :=
  String.join (rows.map csvRowStr)

/-- The 15-cell row built for one post in the loop of `posts_to_csv`; the
three top-level `p.get(...)` calls raise `AttributeError` when `p` is not a
dict. -/
def postRow (p : Val) : Except String (List Val) := do
  let url ← pyGetD p "url" (Val.vstr "")
  let ptype ← pyGetD p "post_type" (Val.vstr "")
  let txt ← pyGetD p "text" (Val.vstr "")
  pure [get_path p "posted_at.date", get_path p "posted_at.relative", url, ptype, txt,
    get_path p "stats.total_reactions", get_path p "stats.like", get_path p "stats.support",
    get_path p "stats.love", get_path p "stats.insight", get_path p "stats.celebrate",
    get_path p "stats.comments", get_path p "stats.reposts", get_path p "stats.funny",
    get_path p "media.type"]

/-- `posts_to_csv(posts)`: header row then one row per post, serialized
(UTF-8 encoding of the buffer is identity on the model's strings). -/
def posts_to_csv (posts : List Val) : Except String String :=
  match mapExcept postRow posts with
  | .error e => .error e
  | .ok rows => .ok (encodeCsv (headers :: rows.map (fun r => r.map cellStr)))

/-- Outcome of the module-level UI handler: either `st.error` with a message,
or a successful run offering CSV bytes for download. -/
inductive UIOutcome where
  | uiError (msg : String)
  | uiSuccess (csvBytes : String)

/-- The `try/except` block of the module-level handler: run the pipeline and
build the CSV; any raised exception `e` becomes `st.error(f"Error: {e}")`,
and then no download is offered. (`extract_username` feeds the request body,
which the abstract `net` already fixes.) -/
def ui_run (P : String → Option Nat) (net : Nat → HttpResp)
    (start end_ : Nat) (target_total : Nat) : UIOutcome :=
  match (fetch_posts_bulk P net start end_ target_total).2 with
  | .error e => .uiError ("Error: " ++ e)
  | .ok pair =>
    match posts_to_csv pair.2 with
    | .error e => .uiError ("Error: " ++ e)
    | .ok csvBytes => .uiSuccess csvBytes

/-- Declarative description of a present dotted path: `PathVal obj parts v`
holds when following `parts` through nested dicts from `obj` reaches `v`. -/
inductive PathVal : Val → List String → Val → Prop where
  | nil (v : Val) : PathVal v [] v
  | cons (kvs : List (String × Val)) (k : String) (v w : Val) (rest : List String) :
      kvs.lookup k = some v → PathVal v rest w → PathVal (.vdict kvs) (k :: rest) w

/-- A value is a Python dict. -/
def Val.isDict : Val → Bool
  | .vdict _ => true
  | _ => false

/-- Executable test for presence of a dotted path (companion of `PathVal`). -/
def hasPathB : Val → List String → Bool
  | _, [] => true
  | .vdict kvs, k :: rest =>
    match kvs.lookup k with
    | some v => hasPathB v rest
    | none => false
  | _, _ :: _ => false

/-- The sort key `fetch_posts_bulk` uses for a post: its parsed date, with
`datetime.min` (here `0`) as default; also `0` on records whose date
extraction would raise (such records never reach the sort). -/
def postKey (P : String → Option Nat) (p : Val) : Nat :=
  match getPostedDate P p with
  | .ok dt => dt.getD 0
  | .error _ => 0

/-- A record shape on which the date extraction of `fetch_posts_bulk` cannot
raise: a dict whose `posted_at` entry, when present, is itself a dict. -/
def recOkB (p : Val) : Bool :=
  match p with
  | .vdict kvs =>
    match kvs.lookup "posted_at" with
    | some (.vdict _) => true
    | some _ => false
    | none => true
  | _ => false

/-- A concrete stand-in for the abstract date parser, used to instantiate
theorems on executable inputs: recognizes a fixed table of date strings. -/
def exParser : String → Option Nat := fun s =>
  if s = "5" then some 5
  else if s = "7" then some 7
  else if s = "2024-01-02" then some 20240102
  else none

/-- Concrete record with parseable date `5`. -/
def exPost5 : Val := .vdict [("posted_at", .vdict [("date", .vstr "5")])]

/-- Concrete record with parseable date `7`. -/
def exPost7 : Val := .vdict [("posted_at", .vdict [("date", .vstr "7")])]

/-- Concrete record whose `posted_at` field is a string, not a dict. -/
def exBadPost : Val := .vdict [("posted_at", .vstr "x")]

/-- Actor that always answers 200 with the single record `exPost5`. -/
def exNet1 : Nat → HttpResp := fun _ => ⟨200, "", .vlist [exPost5]⟩

/-- Actor that always answers 200 with records dated 7 and 5. -/
def exNet2 : Nat → HttpResp := fun _ => ⟨200, "", .vlist [exPost7, exPost5]⟩

/-- Actor that always answers HTTP 500 with body text `boom`. -/
def exNet500 : Nat → HttpResp := fun _ => ⟨500, "boom", .vnone⟩

/-- Actor that always answers 200 with the malformed record `exBadPost`. -/
def exNetBad : Nat → HttpResp := fun _ => ⟨200, "", .vlist [exBadPost]⟩

/-- Concrete record with `stats.insight` present and `stats.celebrate` absent. -/
def exStatsPost : Val :=
  .vdict [("posted_at", .vdict [("date", .vstr "2024-01-02")]),
          ("stats", .vdict [("insight", .vint 7)])]

/-- An occurrence of the profile-path pattern somewhere in the input: the
literal `linkedin.com/in/` followed by at least one non-delimiter character
(the declarative counterpart of a successful `re.search`). -/
def SegMatch (s : List Char) : Prop :=
  ∃ pre seg suf, s = pre ++ patChars ++ seg ++ suf ∧ seg ≠ [] ∧
    ∀ c ∈ seg, isDelim c = false

/- ### Helper lemmas -/

theorem mapExcept_ok_forall2 {α β : Type} {f : α → Except String β} :
    ∀ {l : List α} {r : List β}, mapExcept f l = .ok r →
      List.Forall₂ (fun a b => f a = .ok b) l r := by
  intro l
  induction l with
  | nil =>
    intro r h
    cases h
    exact List.Forall₂.nil
  | cons a l ih =>
    intro r h
    simp only [mapExcept] at h
    cases hfa : f a <;> rw [hfa] at h
    · simp at h
    · cases hml : mapExcept f l <;> rw [hml] at h
      · simp at h
      · cases h
        exact List.Forall₂.cons hfa (ih hml)

theorem mapExcept_ok_of_forall {α β : Type} {f : α → Except String β} :
    ∀ {l : List α}, (∀ a ∈ l, ∃ b, f a = .ok b) → ∃ r, mapExcept f l = .ok r := by
  intro l
  induction l with
  | nil => intro _; exact ⟨[], rfl⟩
  | cons a l ih =>
    intro hall
    obtain ⟨b, hb⟩ := hall a (List.mem_cons_self a l)
    obtain ⟨r, hr⟩ := ih (fun x hx => hall x (List.mem_cons_of_mem a hx))
    exact ⟨b :: r, by simp only [mapExcept]; rw [hb, hr]⟩

theorem pathVal_getPathParts :
    ∀ {parts : List String} {obj w : Val}, PathVal obj parts w → getPathParts obj parts = w := by
  intro parts
  induction parts with
  | nil =>
    intro obj w h
    cases h
    rfl
  | cons k rest ih =>
    intro obj w h
    cases h with
    | cons kvs _ v _ _ hlook htail =>
      simp only [getPathParts]
      rw [hlook]
      exact ih htail

theorem getPathParts_of_no_path :
    ∀ {parts : List String} {obj : Val},
      (¬ ∃ w, PathVal obj parts w) → getPathParts obj parts = .vstr "" := by
  intro parts
  induction parts with
  | nil =>
    intro obj h
    exact absurd ⟨obj, PathVal.nil obj⟩ h
  | cons k rest ih =>
    intro obj h
    cases obj with
    | vdict kvs =>
      simp only [getPathParts]
      cases hlook : kvs.lookup k with
      | none => rfl
      | some v =>
        refine ih (fun ⟨w, hw⟩ => h ⟨w, PathVal.cons kvs k v w rest hlook hw⟩)
    | vnone => rfl
    | vstr _ => rfl
    | vint _ => rfl
    | vbool _ => rfl
    | vlist _ => rfl

theorem getPostedDate_ok_of_recOkB {P : String → Option Nat} {p : Val}
    (h : recOkB p = true) : ∃ dt, getPostedDate P p = .ok dt := by
  cases p with
  | vdict kvs =>
    cases hlook : kvs.lookup "posted_at" with
    | none =>
      exact ⟨parse_post_date P Val.vnone, by
        simp only [getPostedDate, pyGetD, hlook, Option.getD_none]
        rfl⟩
    | some pa =>
      simp only [recOkB, hlook] at h
      cases pa with
      | vdict kvs2 =>
        exact ⟨parse_post_date P ((kvs2.lookup "date").getD Val.vnone), by
          simp only [getPostedDate, pyGetD, hlook, Option.getD_some]⟩
      | vnone => simp at h
      | vstr _ => simp at h
      | vint _ => simp at h
      | vbool _ => simp at h
      | vlist _ => simp at h
  | vnone => simp [recOkB] at h
  | vstr _ => simp [recOkB] at h
  | vint _ => simp [recOkB] at h
  | vbool _ => simp [recOkB] at h
  | vlist _ => simp [recOkB] at h

theorem filterInRange_ok_spec {P : String → Option Nat} {s e : Nat} :
    ∀ {l r : List Val}, filterInRange P s e l = .ok r →
      r.Sublist l ∧ ∀ p ∈ r, ∃ d, getPostedDate P p = .ok (some d) ∧ s ≤ d ∧ d ≤ e := by
  intro l
  induction l with
  | nil =>
    intro r h
    cases h
    exact ⟨List.Sublist.slnil, by simp⟩
  | cons p ps ih =>
    intro r h
    simp only [filterInRange] at h
    cases hd : getPostedDate P p <;> rw [hd] at h
    · simp at h
    · cases hrest : filterInRange P s e ps <;> rw [hrest] at h
      · simp at h
      · rename_i dt rest
        obtain ⟨hsub, hall⟩ := ih hrest
        cases dt with
        | none =>
          cases h
          exact ⟨hsub.cons p, hall⟩
        | some d =>
          have h2 : (if s ≤ d ∧ d ≤ e then (Except.ok (p :: rest) : Except String (List Val))
              else .ok rest) = .ok r := h
          by_cases hc : s ≤ d ∧ d ≤ e
          · rw [if_pos hc] at h2
            cases h2
            refine ⟨hsub.cons₂ p, ?_⟩
            intro q hq
            cases hq with
            | head => exact ⟨d, hd, hc.1, hc.2⟩
            | tail _ hq2 => exact hall q hq2
          · rw [if_neg hc] at h2
            cases h2
            exact ⟨hsub.cons p, hall⟩

theorem filterInRange_ok_of {P : String → Option Nat} {s e : Nat} :
    ∀ {l : List Val}, (∀ p ∈ l, ∃ dt, getPostedDate P p = .ok dt) →
      ∃ r, filterInRange P s e l = .ok r := by
  intro l
  induction l with
  | nil => intro _; exact ⟨[], rfl⟩
  | cons p ps ih =>
    intro hall
    obtain ⟨dt, hdt⟩ := hall p (List.mem_cons_self p ps)
    obtain ⟨r, hr⟩ := ih (fun x hx => hall x (List.mem_cons_of_mem p hx))
    cases dt with
    | none => exact ⟨r, by simp only [filterInRange]; rw [hdt, hr]⟩
    | some d =>
      by_cases hc : s ≤ d ∧ d ≤ e
      · refine ⟨p :: r, ?_⟩
        simp only [filterInRange]
        rw [hdt, hr]
        show (if s ≤ d ∧ d ≤ e then (Except.ok (p :: r) : Except String (List Val))
            else .ok r) = .ok (p :: r)
        rw [if_pos hc]
      · refine ⟨r, ?_⟩
        simp only [filterInRange]
        rw [hdt, hr]
        show (if s ≤ d ∧ d ≤ e then (Except.ok (p :: r) : Except String (List Val))
            else .ok r) = .ok r
        rw [if_neg hc]

theorem decoratePosts_ok_map {P : String → Option Nat} {l : List Val} {k : List (Val × Nat)}
    (h : decoratePosts P l = .ok k) : k = l.map (fun p => (p, postKey P p)) := by
  simp only [decoratePosts] at h
  have h2 := mapExcept_ok_forall2 h
  clear h
  induction h2 with
  | nil => rfl
  | @cons a b l1 l2 ha htail ihtail =>
    cases hd : getPostedDate P a <;> rw [hd] at ha
    · simp at ha
    · cases ha
      simp only [List.map_cons, ihtail, postKey, hd]

theorem finishBatch_ok_parts {P : String → Option Nat} {s e : Nat} {b all inr : List Val}
    (h : finishBatch P s e b = .ok (all, inr)) :
    all = b ∧ ∃ ir, filterInRange P s e b = .ok ir ∧
      inr = ((ir.map (fun q => (q, postKey P q))).insertionSort sortRel).map Prod.fst := by
  simp only [finishBatch] at h
  cases hfi : filterInRange P s e b <;> rw [hfi] at h
  · simp at h
  · rename_i ir
    have h2 : (match decoratePosts P ir with
        | .error e => .error e
        | .ok keyed => Except.ok (b, (keyed.insertionSort sortRel).map Prod.fst)) =
          Except.ok (all, inr) := h
    clear h
    cases hdec : decoratePosts P ir <;> rw [hdec] at h2
    · simp at h2
    · cases h2
      exact ⟨rfl, ir, rfl, by rw [decoratePosts_ok_map hdec]⟩

theorem finishBatch_ok_of {P : String → Option Nat} {s e : Nat} {b : List Val}
    (hall : ∀ p ∈ b, ∃ dt, getPostedDate P p = .ok dt) :
    ∃ pr, finishBatch P s e b = .ok pr := by
  obtain ⟨ir, hir⟩ := filterInRange_ok_of hall
  have hsub := (filterInRange_ok_spec hir).1
  have hall2 : ∀ p ∈ ir, ∃ dt, getPostedDate P p = .ok dt :=
    fun p hp => hall p (hsub.subset hp)
  obtain ⟨k, hk⟩ : ∃ k, decoratePosts P ir = .ok k := by
    simp only [decoratePosts]
    apply mapExcept_ok_of_forall
    intro p hp
    obtain ⟨dt, hdt⟩ := hall2 p hp
    exact ⟨(p, dt.getD 0), by rw [hdt]⟩
  refine ⟨(b, (k.insertionSort sortRel).map Prod.fst), ?_⟩
  simp only [finishBatch]
  rw [hir]
  show (match decoratePosts P ir with
    | .error e => .error e
    | .ok keyed => Except.ok (b, (keyed.insertionSort sortRel).map Prod.fst)) =
      Except.ok (b, (k.insertionSort sortRel).map Prod.fst)
  rw [hk]

theorem fetch_ok_parts {P : String → Option Nat} {net : Nat → HttpResp} {s e tt : Nat}
    {all inr : List Val}
    (h : (fetch_posts_bulk P net s e tt).2 = .ok (all, inr)) :
    ∃ t ir, run_fetch net t = .ok all ∧ filterInRange P s e all = .ok ir ∧
      inr = ((ir.map (fun q => (q, postKey P q))).insertionSort sortRel).map Prod.fst := by
  simp only [fetch_posts_bulk] at h
  cases hrf : run_fetch net tt <;> rw [hrf] at h
  · exact absurd (show (Except.error _ : Except String (List Val × List Val)) = _ from h)
      (by simp)
  · rename_i first
    have h1 : (fetchAfterFirst P net s e tt first).2 = .ok (all, inr) := h
    clear h
    simp only [fetchAfterFirst] at h1
    by_cases hem : first.isEmpty = true
    · have h2 : finishBatch P s e first = .ok (all, inr) := by
        rw [if_pos hem] at h1
        exact h1
      obtain ⟨hab, ir, hir, hinr⟩ := finishBatch_ok_parts h2
      subst hab
      exact ⟨tt, ir, hrf, hir, hinr⟩
    · rw [if_neg hem] at h1
      cases hrd : retryDecision P s tt first <;> rw [hrd] at h1
      · exact absurd (show (Except.error _ : Except String (List Val × List Val)) = _ from h1)
          (by simp)
      · rename_i retry
        cases retry
        · have h2 : finishBatch P s e first = .ok (all, inr) := h1
          obtain ⟨hab, ir, hir, hinr⟩ := finishBatch_ok_parts h2
          subst hab
          exact ⟨tt, ir, hrf, hir, hinr⟩
        · have h3 : (fetchRetry P net s e tt).2 = .ok (all, inr) := h1
          simp only [fetchRetry] at h3
          cases hrf2 : run_fetch net (max 10000 (tt * 2)) <;> rw [hrf2] at h3
          · exact absurd
              (show (Except.error _ : Except String (List Val × List Val)) = _ from h3)
              (by simp)
          · rename_i second
            have h4 : finishBatch P s e second = .ok (all, inr) := h3
            obtain ⟨hab, ir, hir, hinr⟩ := finishBatch_ok_parts h4
            subst hab
            exact ⟨max 10000 (tt * 2), ir, hrf2, hir, hinr⟩

theorem mem_sorted_decorated_iff {P : String → Option Nat} {ir : List Val} {p : Val} :
    p ∈ ((ir.map (fun q => (q, postKey P q))).insertionSort sortRel).map Prod.fst ↔ p ∈ ir := by
  rw [List.mem_map]
  constructor
  · rintro ⟨pr, hpr, rfl⟩
    obtain ⟨q, hq, rfl⟩ := List.mem_map.mp ((List.mem_insertionSort sortRel).mp hpr)
    exact hq
  · intro hp
    exact ⟨(p, postKey P p), (List.mem_insertionSort sortRel).mpr (List.mem_map.mpr ⟨p, hp, rfl⟩), rfl⟩

theorem filter_insertionSort_key (k : Nat) (keyed : List (Val × Nat)) :
    (keyed.insertionSort sortRel).filter (fun pr => pr.2 == k) =
      keyed.filter (fun pr => pr.2 == k) := by
  set p : Val × Nat → Bool := fun pr => pr.2 == k with hp
  have hmemf : ∀ pr ∈ keyed.filter p, p pr = true := fun pr hpr => (List.mem_filter.mp hpr).2
  have hpair : (keyed.filter p).Pairwise sortRel := by
    apply List.pairwise_of_forall_mem_list
    intro a ha b hb
    have ha2 : a.2 = k := by simpa [hp] using hmemf a ha
    have hb2 : b.2 = k := by simpa [hp] using hmemf b hb
    simp [sortRel, ha2, hb2]
  have hsub : (keyed.filter p).Sublist (keyed.insertionSort sortRel) :=
    List.sublist_insertionSort hpair (List.filter_sublist keyed)
  have hsub2 : (keyed.filter p).Sublist ((keyed.insertionSort sortRel).filter p) := by
    have := hsub.filter p
    rwa [List.filter_filter, show (fun a => p a && p a) = p from funext (fun a => by
      cases p a <;> simp)] at this
  have hlen : ((keyed.insertionSort sortRel).filter p).length = (keyed.filter p).length :=
    ((List.perm_insertionSort sortRel keyed).filter p).length_eq
  exact ((hsub2.eq_of_length hlen.symm).symm)

theorem hasPathB_iff : ∀ (parts : List String) (obj : Val),
    (∃ w, PathVal obj parts w) ↔ hasPathB obj parts = true := by
  intro parts
  induction parts with
  | nil =>
    intro obj
    exact ⟨fun _ => by cases obj <;> rfl, fun _ => ⟨obj, PathVal.nil obj⟩⟩
  | cons kk rest ih =>
    intro obj
    constructor
    · rintro ⟨w, hw⟩
      cases hw with
      | cons kvs _ v _ _ hlook htail =>
        simp only [hasPathB, hlook]
        exact (ih v).mp ⟨w, htail⟩
    · intro h
      cases obj with
      | vdict kvs =>
        simp only [hasPathB] at h
        cases hlook : kvs.lookup kk with
        | none => rw [hlook] at h; cases h
        | some v =>
          rw [hlook] at h
          obtain ⟨w, hw⟩ := (ih v).mpr h
          exact ⟨w, PathVal.cons kvs kk v w rest hlook hw⟩
      | vnone => cases h
      | vstr _ => cases h
      | vint _ => cases h
      | vbool _ => cases h
      | vlist _ => cases h

/- ### Claim theorems -/

/-- Claim C6: `parse_post_date` is total: for every input value it returns
either a parsed timestamp or the unparseable sentinel `none`, never raising;
falsy input (absent value, empty string, ...) yields the sentinel without
attempting a parse (the result does not depend on the parser). -/
theorem C6_parse_post_date_total (P Q : String → Option Nat) (v : Val) :
    (parse_post_date P v = none ∨ ∃ d, parse_post_date P v = some d) ∧
      (v.falsy = true → parse_post_date P v = none ∧ parse_post_date Q v = none) := by
  constructor
  · cases h : parse_post_date P v with
    | none => exact Or.inl rfl
    | some d => exact Or.inr ⟨d, rfl⟩
  · intro hf
    constructor <;> simp [parse_post_date, hf]

/-- Witness for C6 at `None` and the empty string. -/
theorem C6_witness :
    parse_post_date exParser Val.vnone = none ∧
      parse_post_date exParser (Val.vstr "") = none :=
  ⟨((C6_parse_post_date_total exParser exParser Val.vnone).2 rfl).1,
   ((C6_parse_post_date_total exParser exParser (Val.vstr "")).2 (by rfl)).1⟩

/-- Claim C10: `get_path` is total beyond missing keys: it returns the value
at a present dotted path, and the empty string otherwise — in particular
whenever an intermediate value along a non-empty path is not a dict — and
consequently `posts_to_csv` completes without raising on every list of dict
records. -/
theorem C10_get_path_total :
    (∀ (obj : Val) (parts : List String),
        (∃ w, PathVal obj parts w ∧ getPathParts obj parts = w) ∨
          getPathParts obj parts = .vstr "") ∧
      (∀ (v : Val) (parts : List String), parts ≠ [] → v.isDict = false →
          getPathParts v parts = .vstr "") ∧
      (∀ posts : List Val, (∀ p ∈ posts, p.isDict = true) →
          ∃ s, posts_to_csv posts = .ok s) := by
  refine ⟨?_, ?_, ?_⟩
  · intro obj parts
    by_cases h : ∃ w, PathVal obj parts w
    · obtain ⟨w, hw⟩ := h
      exact Or.inl ⟨w, hw, pathVal_getPathParts hw⟩
    · exact Or.inr (getPathParts_of_no_path h)
  · intro v parts hne hnd
    cases parts with
    | nil => exact absurd rfl hne
    | cons k rest => cases v <;> simp [Val.isDict] at hnd <;> rfl
  · intro posts hdict
    have hrow : ∀ p ∈ posts, ∃ r, postRow p = .ok r := by
      intro p hp
      have hd := hdict p hp
      cases p <;> simp [Val.isDict] at hd
      exact ⟨_, rfl⟩
    obtain ⟨rows, hrows⟩ := mapExcept_ok_of_forall hrow
    exact ⟨_, by simp only [posts_to_csv]; rw [hrows]⟩

/-- Witness for C10: a number met along `stats.like` yields the empty string,
and a list of dict records exports successfully. -/
theorem C10_witness :
    getPathParts (Val.vdict [("stats", Val.vint 3)]) ["stats", "like"] = .vstr "" ∧
      ∃ s, posts_to_csv [exStatsPost] = .ok s :=
  ⟨by
    have h := C10_get_path_total.1 (Val.vdict [("stats", Val.vint 3)]) ["stats", "like"]
    cases h with
    | inl hex =>
      obtain ⟨w, hw, _⟩ := hex
      cases hw with
      | cons kvs _ v _ _ hlook htail =>
        have hv : v = Val.vint 3 := by
          have : List.lookup "stats" [("stats", Val.vint 3)] = some (Val.vint 3) := rfl
          rw [this] at hlook
          cases hlook
          rfl
        subst hv
        cases htail
    | inr he => exact he,
   C10_get_path_total.2.2 [exStatsPost] (by
    intro p hp
    cases hp with
    | head => rfl
    | tail _ h2 => cases h2)⟩

/-- Claim C9: `posts_to_csv` emits the fixed 15-column header followed by
exactly one row per input record, in input order (each row the image of its
record under `postRow`), and any cell whose dotted path is absent at any
depth is the empty string. -/
theorem C9_posts_to_csv_shape :
    headers.length = 15 ∧
      (∀ (posts : List Val) (rows : List (List Val)),
        mapExcept postRow posts = .ok rows →
          posts_to_csv posts =
              .ok (encodeCsv (headers :: rows.map (fun r => r.map cellStr))) ∧
            rows.length = posts.length ∧
            List.Forall₂ (fun p r => postRow p = .ok r) posts rows) ∧
      (∀ (obj : Val) (path : String),
        (¬ ∃ w, PathVal obj (splitOnChar dotChar path.data) w) →
          get_path obj path = .vstr "") := by
  refine ⟨rfl, ?_, ?_⟩
  · intro posts rows h
    have hf2 := mapExcept_ok_forall2 h
    refine ⟨by simp only [posts_to_csv]; rw [h], ?_, hf2⟩
    exact (List.Forall₂.length_eq hf2).symm
  · intro obj path h
    exact getPathParts_of_no_path h

/-- Witness for C9: the scenario record with `stats.insight` present and
`stats.celebrate` absent exports to one row with value `7` for insight and
the empty string for celebrate. -/
theorem C9_witness :
    posts_to_csv [exStatsPost] =
        .ok (encodeCsv (headers ::
          ([[Val.vstr "2024-01-02", Val.vstr "", Val.vstr "", Val.vstr "", Val.vstr "",
             Val.vstr "", Val.vstr "", Val.vstr "", Val.vstr "", Val.vint 7, Val.vstr "",
             Val.vstr "", Val.vstr "", Val.vstr "", Val.vstr ""]].map
            (fun r => r.map cellStr)))) ∧
      get_path exStatsPost "stats.celebrate" = .vstr "" :=
  ⟨(C9_posts_to_csv_shape.2.1 [exStatsPost]
      [[Val.vstr "2024-01-02", Val.vstr "", Val.vstr "", Val.vstr "", Val.vstr "",
        Val.vstr "", Val.vstr "", Val.vstr "", Val.vstr "", Val.vint 7, Val.vstr "",
        Val.vstr "", Val.vstr "", Val.vstr "", Val.vstr ""]] rfl).1,
   C9_posts_to_csv_shape.2.2 exStatsPost "stats.celebrate" (fun hcon =>
     absurd ((hasPathB_iff _ _).mp hcon) (by decide))⟩

/-- Claim C4 counterexample: a successful run in which every retrieved record
is in range returns an in-range component equal to the full batch, so the
in-range subset is not a strict subset of the full batch. -/
theorem C4_counterexample :
    (fetch_posts_bulk exParser exNet1 5 9 1).2 = .ok ([exPost5], [exPost5]) := rfl

/-- Claim C4 (amended): the in-range component of a successful
`fetch_posts_bulk` run is a subset of the full batch — every in-range record
appears in the full batch — but not necessarily a strict one. -/
theorem C4_amended_subset (P : String → Option Nat) (net : Nat → HttpResp)
    (s e tt : Nat) (all inr : List Val)
    (h : (fetch_posts_bulk P net s e tt).2 = .ok (all, inr)) :
    ∀ p ∈ inr, p ∈ all := by
  obtain ⟨t, ir, hrf, hir, hinr⟩ := fetch_ok_parts h
  intro p hp
  rw [hinr] at hp
  exact ((filterInRange_ok_spec hir).1).subset (mem_sorted_decorated_iff.mp hp)

/-- Witness for the amended C4 on a concrete run. -/
theorem C4_witness : exPost5 ∈ ([exPost5] : List Val) :=
  C4_amended_subset exParser exNet1 5 9 1 [exPost5] [exPost5] rfl exPost5
    (List.mem_cons_self exPost5 [])

/-- Claim C2: in a successful `fetch_posts_bulk` run every in-range record
has a parseable timestamp lying within `[start, end]` inclusive; records with
unparseable timestamps are excluded from the in-range component but the full
batch is returned exactly as retrieved from the final request. -/
theorem C2_in_range_dates (P : String → Option Nat) (net : Nat → HttpResp)
    (s e tt : Nat) (all inr : List Val)
    (h : (fetch_posts_bulk P net s e tt).2 = .ok (all, inr)) :
    (∀ p ∈ inr, ∃ d, getPostedDate P p = .ok (some d) ∧ s ≤ d ∧ d ≤ e) ∧
      (∀ p, getPostedDate P p = .ok none → p ∉ inr) ∧
      (∃ t, run_fetch net t = .ok all) := by
  obtain ⟨t, ir, hrf, hir, hinr⟩ := fetch_ok_parts h
  have hmem : ∀ p ∈ inr, p ∈ ir := by
    intro p hp
    rw [hinr] at hp
    exact mem_sorted_decorated_iff.mp hp
  refine ⟨?_, ?_, ⟨t, hrf⟩⟩
  · intro p hp
    exact (filterInRange_ok_spec hir).2 p (hmem p hp)
  · intro p hnone hp
    obtain ⟨d, hd, _, _⟩ := (filterInRange_ok_spec hir).2 p (hmem p hp)
    rw [hnone] at hd
    simp at hd

/-- Witness for C2 on a concrete run with two in-range records. -/
theorem C2_witness :
    ∃ t, run_fetch exNet2 t = .ok [exPost7, exPost5] :=
  (C2_in_range_dates exParser exNet2 1 9 2 [exPost7, exPost5] [exPost7, exPost5] rfl).2.2

/-- Claim C3: the in-range component of a successful run is sorted by parsed
timestamp descending, each in-range record's sort key is its parsed
timestamp, the pre-sort filtered list preserves the order of the full batch,
and records with equal timestamps keep that relative order (stability,
expressed per key value). -/
theorem C3_sorted_stable (P : String → Option Nat) (net : Nat → HttpResp)
    (s e tt : Nat) (all inr ir : List Val)
    (h : (fetch_posts_bulk P net s e tt).2 = .ok (all, inr))
    (hir : filterInRange P s e all = .ok ir) :
    inr.Pairwise (fun a b => postKey P b ≤ postKey P a) ∧
      ir.Sublist all ∧
      (∀ p ∈ inr, getPostedDate P p = .ok (some (postKey P p))) ∧
      (∀ k : Nat, inr.filter (fun p => postKey P p == k) =
        ir.filter (fun p => postKey P p == k)) := by
  obtain ⟨t, ir2, hrf, hir2, hinr⟩ := fetch_ok_parts h
  have hi : ir2 = ir := by
    rw [hir2] at hir
    cases hir
    rfl
  subst hi
  set dec : Val → Val × Nat := fun q => (q, postKey P q) with hdec
  set keyed : List (Val × Nat) := ir2.map dec with hkeyed
  have hsnd : ∀ pr ∈ keyed.insertionSort sortRel, pr.2 = postKey P pr.1 := by
    intro pr hpr
    obtain ⟨q, _, rfl⟩ := List.mem_map.mp ((List.mem_insertionSort sortRel).mp hpr)
    rfl
  refine ⟨?_, (filterInRange_ok_spec hir2).1, ?_, ?_⟩
  · rw [hinr]
    rw [List.pairwise_map]
    have hsorted : (keyed.insertionSort sortRel).Pairwise sortRel :=
      List.sorted_insertionSort sortRel keyed
    exact hsorted.imp_of_mem (fun ha hb hr => by
      rw [← hsnd _ ha, ← hsnd _ hb]
      exact hr)
  · intro p hp
    rw [hinr] at hp
    obtain ⟨d, hd, _, _⟩ :=
      (filterInRange_ok_spec hir2).2 p (mem_sorted_decorated_iff.mp hp)
    have hk : postKey P p = d := by simp [postKey, hd]
    rw [hk]
    exact hd
  · intro k
    set qb : Val → Bool := fun p => postKey P p == k with hqb
    have hcongr : ∀ pr ∈ keyed.insertionSort sortRel,
        (fun pr : Val × Nat => qb pr.1) pr = (fun pr : Val × Nat => pr.2 == k) pr := by
      intro pr hpr
      simp only [hqb, hsnd pr hpr]
    have hcongr2 : ∀ pr ∈ keyed,
        (fun pr : Val × Nat => pr.2 == k) pr = (fun pr : Val × Nat => qb pr.1) pr := by
      intro pr hpr
      obtain ⟨q, _, rfl⟩ := List.mem_map.mp hpr
      rfl
    calc inr.filter qb
        = ((keyed.insertionSort sortRel).map Prod.fst).filter qb := by rw [hinr]
      _ = ((keyed.insertionSort sortRel).filter
            (fun pr : Val × Nat => qb pr.1)).map Prod.fst := by
          rw [List.filter_map]
          rfl
      _ = ((keyed.insertionSort sortRel).filter
            (fun pr : Val × Nat => pr.2 == k)).map Prod.fst := by
          rw [List.filter_congr hcongr]
      _ = (keyed.filter (fun pr : Val × Nat => pr.2 == k)).map Prod.fst := by
          rw [filter_insertionSort_key]
      _ = (keyed.filter (fun pr : Val × Nat => qb pr.1)).map Prod.fst := by
          rw [List.filter_congr hcongr2]
      _ = ((ir2.filter qb).map dec).map Prod.fst := by
          rw [hkeyed, List.filter_map]
          rfl
      _ = ir2.filter qb := by
          rw [List.map_map]
          exact List.map_id _

/-- Witness for C3 on a concrete run. -/
theorem C3_witness : ([exPost7, exPost5] : List Val).Sublist [exPost7, exPost5] :=
  (C3_sorted_stable exParser exNet2 1 9 2 [exPost7, exPost5] [exPost7, exPost5]
    [exPost7, exPost5] rfl rfl).2.1

/-- Claim C5 counterexample: a record whose `posted_at` field is a string
makes `fetch_posts_bulk` raise `AttributeError` even though the HTTP
response was successful, so malformed fields can abort the operation. -/
theorem C5_counterexample :
    (exNetBad 5).respOk = true ∧
      (fetch_posts_bulk exParser exNetBad 0 9 5).2 = .error "AttributeError" :=
  ⟨rfl, rfl⟩

/-- Claim C5 (amended): for batches of dict records whose `posted_at` field,
when present, is itself a dict, `fetch_posts_bulk` completes without raising
whenever the HTTP responses are successful; missing fields and unparseable
dates degrade gracefully. A record with a non-dict `posted_at` raises
`AttributeError` instead (see the counterexample). -/
theorem C5_amended_graceful (P : String → Option Nat) (net : Nat → HttpResp)
    (s e tt : Nat)
    (hok : ∀ t, (net t).respOk = true)
    (hwf : ∀ t, ∀ p ∈ (net t).items, recOkB p = true) :
    ∃ all inr, (fetch_posts_bulk P net s e tt).2 = .ok (all, inr) := by
  have hrf : ∀ t, run_fetch net t = .ok (net t).items := by
    intro t
    simp [run_fetch, hok t]
  have hgfd : ∀ t, ∀ p ∈ (net t).items, ∃ dt, getPostedDate P p = .ok dt :=
    fun t p hp => getPostedDate_ok_of_recOkB (hwf t p hp)
  simp only [fetch_posts_bulk]
  rw [hrf tt]
  show ∃ all inr, (fetchAfterFirst P net s e tt (net tt).items).2 = .ok (all, inr)
  simp only [fetchAfterFirst]
  by_cases hem : (net tt).items.isEmpty = true
  · rw [if_pos hem]
    obtain ⟨pr, hpr⟩ := finishBatch_ok_of (hgfd tt)
    exact ⟨pr.1, pr.2, by
      show finishBatch P s e (net tt).items = .ok (pr.1, pr.2)
      rw [hpr]⟩
  · rw [if_neg hem]
    obtain ⟨parsed, hparsed⟩ := mapExcept_ok_of_forall (hgfd tt)
    have hrd : ∃ b, retryDecision P s tt (net tt).items = .ok b := by
      have hstep : retryDecision P s tt (net tt).items =
          (match (parsed.filterMap id).min? with
           | none => Except.ok true
           | some min_dt =>
               Except.ok (decide (s < min_dt) &&
                 decide (min tt 1000 ≤ (net tt).items.length))) := by
        simp only [retryDecision]
        rw [hparsed]
      rw [hstep]
      cases (parsed.filterMap id).min? with
      | none => exact ⟨true, rfl⟩
      | some m => exact ⟨_, rfl⟩
    obtain ⟨b, hb⟩ := hrd
    rw [hb]
    cases b
    · obtain ⟨pr, hpr⟩ := finishBatch_ok_of (hgfd tt)
      exact ⟨pr.1, pr.2, by
        show finishBatch P s e (net tt).items = .ok (pr.1, pr.2)
        rw [hpr]⟩
    · obtain ⟨pr, hpr⟩ := finishBatch_ok_of (hgfd (max 10000 (tt * 2)))
      refine ⟨pr.1, pr.2, ?_⟩
      show (fetchRetry P net s e tt).2 = .ok (pr.1, pr.2)
      simp only [fetchRetry]
      rw [hrf (max 10000 (tt * 2))]
      show finishBatch P s e (net (max 10000 (tt * 2))).items = .ok (pr.1, pr.2)
      rw [hpr]

/-- Witness for the amended C5 on a concrete well-formed run. -/
theorem C5_witness :
    ∃ all inr, (fetch_posts_bulk exParser exNet2 1 9 2).2 = .ok (all, inr) :=
  C5_amended_graceful exParser exNet2 1 9 2 (fun _ => rfl) (fun _ => by
    intro p hp
    have h2 : p ∈ [exPost7, exPost5] := hp
    cases h2 with
    | head => rfl
    | tail _ h3 =>
      cases h3 with
      | head => rfl
      | tail _ h4 => cases h4)

/-- Claim C8: a non-success HTTP response on either request raises a
`RuntimeError` carrying the status code and response body, `fetch_posts_bulk`
propagates it, and the UI handler then shows the error and offers no CSV. -/
theorem C8_http_error (P : String → Option Nat) (net : Nat → HttpResp)
    (s e tt : Nat) :
    (∀ t, (net t).respOk = false → run_fetch net t = .error (apifyMsg (net t))) ∧
      ((net tt).respOk = false →
        (fetch_posts_bulk P net s e tt).2 = .error (apifyMsg (net tt))) ∧
      (∀ items, run_fetch net tt = .ok items → items ≠ [] →
        retryDecision P s tt items = .ok true →
        (net (max 10000 (tt * 2))).respOk = false →
        (fetch_posts_bulk P net s e tt).2 =
          .error (apifyMsg (net (max 10000 (tt * 2))))) ∧
      (∀ msg, (fetch_posts_bulk P net s e tt).2 = .error msg →
        ui_run P net s e tt = .uiError ("Error: " ++ msg) ∧
        ∀ b, ui_run P net s e tt ≠ .uiSuccess b) := by
  have hfail : ∀ t, (net t).respOk = false → run_fetch net t = .error (apifyMsg (net t)) := by
    intro t h
    simp [run_fetch, h]
  refine ⟨hfail, ?_, ?_, ?_⟩
  · intro h
    simp only [fetch_posts_bulk]
    rw [hfail tt h]
  · intro items h1 hne hrd h2
    simp only [fetch_posts_bulk]
    rw [h1]
    show (fetchAfterFirst P net s e tt items).2 = _
    simp only [fetchAfterFirst]
    rw [if_neg (fun hcontr => hne (List.isEmpty_iff.mp hcontr)), hrd]
    show (fetchRetry P net s e tt).2 = _
    simp only [fetchRetry]
    rw [hfail _ h2]
  · intro msg h
    constructor
    · simp only [ui_run]
      rw [h]
    · intro b
      simp [ui_run, h]

/-- Witness for C8 on an actor answering HTTP 500 with body `boom`. -/
theorem C8_witness :
    ui_run exParser exNet500 0 9 5 = .uiError ("Error: " ++ apifyMsg (exNet500 5)) ∧
      ∀ b, ui_run exParser exNet500 0 9 5 ≠ .uiSuccess b :=
  (C8_http_error exParser exNet500 0 9 5).2.2.2 (apifyMsg (exNet500 5))
    ((C8_http_error exParser exNet500 0 9 5).2.1 rfl)

theorem fetchRetry_fst (P : String → Option Nat) (net : Nat → HttpResp) (s e tt : Nat) :
    (fetchRetry P net s e tt).1 = [tt, max 10000 (tt * 2)] := by
  simp only [fetchRetry]
  cases run_fetch net (max 10000 (tt * 2)) <;> rfl

theorem fetch_requests_cases (P : String → Option Nat) (net : Nat → HttpResp)
    (s e tt : Nat) :
    (fetch_posts_bulk P net s e tt).1 = [tt] ∨
      (fetch_posts_bulk P net s e tt).1 = [tt, max 10000 (tt * 2)] := by
  simp only [fetch_posts_bulk]
  cases hrf : run_fetch net tt
  · exact Or.inl rfl
  · rename_i first
    show (fetchAfterFirst P net s e tt first).1 = [tt] ∨
      (fetchAfterFirst P net s e tt first).1 = [tt, max 10000 (tt * 2)]
    simp only [fetchAfterFirst]
    by_cases hem : first.isEmpty = true
    · rw [if_pos hem]
      exact Or.inl rfl
    · rw [if_neg hem]
      cases hrd : retryDecision P s tt first
      · exact Or.inl rfl
      · rename_i b
        cases b
        · exact Or.inl rfl
        · exact Or.inr (fetchRetry_fst P net s e tt)

theorem fetch_requests_spec (P : String → Option Nat) (net : Nat → HttpResp)
    (s e tt : Nat) (items : List Val) (parsed : List (Option Nat))
    (h1 : run_fetch net tt = .ok items)
    (h2 : mapExcept (getPostedDate P) items = .ok parsed) :
    (fetch_posts_bulk P net s e tt).1 =
      if items.isEmpty then [tt]
      else
        match (parsed.filterMap id).min? with
        | none => [tt, max 10000 (tt * 2)]
        | some m =>
            if s < m ∧ min tt 1000 ≤ items.length then [tt, max 10000 (tt * 2)]
            else [tt] := by
  simp only [fetch_posts_bulk]
  rw [h1]
  show (fetchAfterFirst P net s e tt items).1 = _
  simp only [fetchAfterFirst]
  by_cases hem : items.isEmpty = true
  · rw [if_pos hem, if_pos hem]
  · rw [if_neg hem, if_neg hem]
    cases hmin : (parsed.filterMap id).min? with
    | none =>
      have hrd : retryDecision P s tt items = .ok true := by
        simp only [retryDecision]
        rw [h2]
        show (match (parsed.filterMap id).min? with
          | none => Except.ok true
          | some min_dt =>
              Except.ok (decide (s < min_dt) &&
                decide (min tt 1000 ≤ items.length))) = Except.ok true
        rw [hmin]
      rw [hrd]
      exact fetchRetry_fst P net s e tt
    | some m =>
      have hrd : retryDecision P s tt items =
          .ok (decide (s < m) && decide (min tt 1000 ≤ items.length)) := by
        simp only [retryDecision]
        rw [h2]
        show (match (parsed.filterMap id).min? with
          | none => Except.ok true
          | some min_dt =>
              Except.ok (decide (s < min_dt) &&
                decide (min tt 1000 ≤ items.length))) =
          Except.ok (decide (s < m) && decide (min tt 1000 ≤ items.length))
        rw [hmin]
      rw [hrd]
      cases hbv : (decide (s < m) && decide (min tt 1000 ≤ items.length)) with
      | false =>
        have hc : ¬(s < m ∧ min tt 1000 ≤ items.length) := by
          rintro ⟨u, v⟩
          simp [u, v] at hbv
        show ([tt] : List Nat) =
          if s < m ∧ min tt 1000 ≤ items.length then [tt, max 10000 (tt * 2)] else [tt]
        rw [if_neg hc]
      | true =>
        have hc : s < m ∧ min tt 1000 ≤ items.length := by
          simpa using hbv
        show (fetchRetry P net s e tt).1 =
          if s < m ∧ min tt 1000 ≤ items.length then [tt, max 10000 (tt * 2)] else [tt]
        rw [if_pos hc]
        exact fetchRetry_fst P net s e tt

/-- Claim C1: after a successful first fetch, a second (and final) request
with ceiling `max(10000, target_total * 2)` is issued iff the batch is
non-empty and either no timestamp parsed successfully or the minimum parsed
timestamp is later than `start` while the batch holds at least
`min(target_total, 1000)` items; an empty first batch never triggers a
retry, and every run issues at most 2 requests. -/
theorem C1_retry_policy (P : String → Option Nat) (net : Nat → HttpResp)
    (s e tt : Nat) (items : List Val) (parsed : List (Option Nat))
    (h1 : run_fetch net tt = .ok items)
    (h2 : mapExcept (getPostedDate P) items = .ok parsed) :
    (∀ (Q : String → Option Nat) (net2 : Nat → HttpResp) (s2 e2 t2 : Nat),
        (fetch_posts_bulk Q net2 s2 e2 t2).1.length ≤ 2) ∧
      (items = [] → (fetch_posts_bulk P net s e tt).1 = [tt]) ∧
      ((fetch_posts_bulk P net s e tt).1 = [tt, max 10000 (tt * 2)] ↔
        items ≠ [] ∧
          (parsed.filterMap id = [] ∨
            ∃ m ∈ parsed.filterMap id,
              (∀ x ∈ parsed.filterMap id, m ≤ x) ∧ s < m ∧
                min tt 1000 ≤ items.length)) := by
  have hspec := fetch_requests_spec P net s e tt items parsed h1 h2
  refine ⟨?_, ?_, ?_⟩
  · intro Q net2 s2 e2 t2
    rcases fetch_requests_cases Q net2 s2 e2 t2 with hc | hc <;> rw [hc] <;> simp
  · intro hemp
    rw [hspec, if_pos (List.isEmpty_iff.mpr hemp)]
  · rw [hspec]
    by_cases hemp : items = []
    · rw [if_pos (List.isEmpty_iff.mpr hemp)]
      constructor
      · intro hcon
        exact absurd (congrArg List.length hcon) (by simp)
      · rintro ⟨hne, _⟩
        exact absurd hemp hne
    · rw [if_neg (fun hc => hemp (List.isEmpty_iff.mp hc))]
      cases hmin : (parsed.filterMap id).min? with
      | none =>
        rw [List.min?_eq_none_iff] at hmin
        constructor
        · intro _
          exact ⟨hemp, Or.inl hmin⟩
        · intro _
          rfl
      | some m =>
        obtain ⟨hmem, hleast⟩ := (List.min?_eq_some_iff Nat.le_refl
            (fun a b => by rw [Nat.min_def]; split <;> simp)
            (fun a b c => Nat.le_min)).mp hmin
        constructor
        · intro hreq
          have hreq2 : (if s < m ∧ min tt 1000 ≤ items.length
              then [tt, max 10000 (tt * 2)] else [tt]) = [tt, max 10000 (tt * 2)] := hreq
          by_cases hc : s < m ∧ min tt 1000 ≤ items.length
          · exact ⟨hemp, Or.inr ⟨m, hmem, hleast, hc.1, hc.2⟩⟩
          · rw [if_neg hc] at hreq2
            exact absurd (congrArg List.length hreq2) (by simp)
        · rintro ⟨hne, hdisj⟩
          rcases hdisj with hnil | ⟨m2, hm2mem, hm2least, hs2, hlen2⟩
          · rw [hnil] at hmin
            simp at hmin
          · have hm2 : m2 = m := Nat.le_antisymm (hm2least m hmem) (hleast m2 hm2mem)
            subst hm2
            show (if s < m2 ∧ min tt 1000 ≤ items.length
              then [tt, max 10000 (tt * 2)] else [tt]) = [tt, max 10000 (tt * 2)]
            rw [if_pos ⟨hs2, hlen2⟩]

/-- Witness for C1 on a concrete run that triggers the retry. -/
theorem C1_witness :
    (fetch_posts_bulk exParser exNet2 1 9 2).1 = [2, 10000] :=
  (C1_retry_policy exParser exNet2 1 9 2 [exPost7, exPost5] [some 7, some 5]
      rfl rfl).2.2.mpr
    ⟨by simp, Or.inr ⟨5, by decide, by decide, by decide, by decide⟩⟩

theorem dropWhile_head_not {α : Type} (f : α → Bool) :
    ∀ l : List α, l.dropWhile f = [] ∨
      ∃ d tl, l.dropWhile f = d :: tl ∧ f d = false := by
  intro l
  induction l with
  | nil => exact Or.inl rfl
  | cons a l ih =>
    cases hfa : f a with
    | false =>
      exact Or.inr ⟨a, l, by rw [List.dropWhile_cons, if_neg (by simp [hfa])], hfa⟩
    | true =>
      rw [List.dropWhile_cons, if_pos hfa]
      exact ih

theorem scanMatch_some_spec :
    ∀ {s seg : List Char}, scanMatch s = some seg →
      ∃ pre suf, s = pre ++ patChars ++ seg ++ suf ∧ seg ≠ [] ∧
        (∀ c ∈ seg, isDelim c = false) ∧
        (suf = [] ∨ ∃ d tl, suf = d :: tl ∧ isDelim d = true) := by
  intro s
  induction s with
  | nil => intro seg h; simp [scanMatch] at h
  | cons c rest ih =>
    intro seg h
    simp only [scanMatch] at h
    by_cases hpre : patChars.isPrefixOf (c :: rest) = true
    · rw [if_pos hpre] at h
      by_cases hcap : (((c :: rest).drop patChars.length).takeWhile
          (fun ch => !(isDelim ch))).isEmpty = true
      · rw [if_pos hcap] at h
        obtain ⟨pre, suf, heq, hne, hdel, hsuf⟩ := ih h
        exact ⟨c :: pre, suf, by simp [heq], hne, hdel, hsuf⟩
      · rw [if_neg hcap] at h
        cases h
        obtain ⟨t, ht⟩ := List.isPrefixOf_iff_prefix.mp hpre
        have hdrop : (c :: rest).drop patChars.length = t := by
          rw [← ht, List.drop_left]
        refine ⟨[], t.dropWhile (fun ch => !(isDelim ch)), ?_, ?_, ?_, ?_⟩
        · rw [List.nil_append, hdrop, ← ht, List.append_assoc]
          congr 1
          exact (List.takeWhile_append_dropWhile (fun ch => !(isDelim ch)) t).symm
        · intro hne
          exact hcap (by rw [hne]; rfl)
        · intro x hx
          have hp := List.mem_takeWhile_imp hx
          simpa using hp
        · rcases dropWhile_head_not (fun ch => !(isDelim ch)) t with hnil | ⟨d, tl, hdt, hfd⟩
          · exact Or.inl hnil
          · refine Or.inr ⟨d, tl, hdt, ?_⟩
            simpa using hfd
    · rw [if_neg hpre] at h
      obtain ⟨pre, suf, heq, hne, hdel, hsuf⟩ := ih h
      exact ⟨c :: pre, suf, by simp [heq], hne, hdel, hsuf⟩

theorem scanMatch_isSome_of_match :
    ∀ {s : List Char}, SegMatch s → (scanMatch s).isSome = true := by
  intro s
  induction s with
  | nil =>
    rintro ⟨pre, seg, suf, heq, hne, _⟩
    exfalso
    obtain ⟨h12, _⟩ := List.append_eq_nil.mp heq.symm
    obtain ⟨hpp, _⟩ := List.append_eq_nil.mp h12
    obtain ⟨_, hpat⟩ := List.append_eq_nil.mp hpp
    exact (show patChars ≠ [] by decide) hpat
  | cons c rest ih =>
    rintro ⟨pre, seg, suf, heq, hne, hdel⟩
    simp only [scanMatch]
    by_cases hpre2 : patChars.isPrefixOf (c :: rest) = true
    · rw [if_pos hpre2]
      by_cases hcap : (((c :: rest).drop patChars.length).takeWhile
          (fun ch => !(isDelim ch))).isEmpty = true
      · rw [if_pos hcap]
        cases pre with
        | nil =>
          exfalso
          rw [List.nil_append, List.append_assoc] at heq
          have hdrop : (c :: rest).drop patChars.length = seg ++ suf := by
            rw [heq, List.drop_left]
          cases seg with
          | nil => exact hne rfl
          | cons s0 stail =>
            have h0 : isDelim s0 = false := hdel s0 (List.mem_cons_self _ _)
            rw [hdrop] at hcap
            simp [List.cons_append, List.takeWhile_cons, h0] at hcap
        | cons p0 ptail =>
          simp only [List.cons_append] at heq
          injection heq with hc hrest
          exact ih ⟨ptail, seg, suf, by simp [hrest], hne, hdel⟩
      · rw [if_neg hcap]
        rfl
    · rw [if_neg hpre2]
      cases pre with
      | nil =>
        exfalso
        apply hpre2
        rw [List.nil_append] at heq
        rw [heq]
        exact List.isPrefixOf_iff_prefix.mpr ⟨seg ++ suf, by simp⟩
      | cons p0 ptail =>
        simp only [List.cons_append] at heq
        injection heq with hc hrest
        exact ih ⟨ptail, seg, suf, by simp [hrest], hne, hdel⟩

/-- Claim C7: `extract_username` returns a captured profile-path segment —
nonempty, delimiter-free, immediately following `linkedin.com/in/` and
maximal (ended by a delimiter or the end of the string) — whenever the input
contains the profile-path pattern, and otherwise returns the input with
surrounding whitespace stripped, performing no other transformation. -/
theorem C7_extract_username (s : String) :
    (¬ SegMatch s.data → extract_username s = String.mk (pyStrip s.data)) ∧
      (SegMatch s.data → ∃ seg pre suf, scanMatch s.data = some seg ∧
        extract_username s = String.mk seg ∧
        s.data = pre ++ patChars ++ seg ++ suf ∧ seg ≠ [] ∧
        (∀ c ∈ seg, isDelim c = false) ∧
        (suf = [] ∨ ∃ d tl, suf = d :: tl ∧ isDelim d = true)) := by
  constructor
  · intro hno
    simp only [extract_username]
    cases hs : scanMatch s.data with
    | none => rfl
    | some seg =>
      exfalso
      obtain ⟨pre, suf, heq, hne, hdel, _⟩ := scanMatch_some_spec hs
      exact hno ⟨pre, seg, suf, heq, hne, hdel⟩
  · intro hyes
    have hsome := scanMatch_isSome_of_match hyes
    cases hs : scanMatch s.data with
    | none =>
      rw [hs] at hsome
      simp at hsome
    | some seg =>
      obtain ⟨pre, suf, heq, hne, hdel, hsuf⟩ := scanMatch_some_spec hs
      exact ⟨seg, pre, suf, rfl, by simp only [extract_username, hs], heq, hne, hdel, hsuf⟩

/-- Witness for C7 on the URL scenario from the specification. -/
theorem C7_witness :
    ∃ seg pre suf,
      scanMatch "https://www.linkedin.com/in/janedoe/".data = some seg ∧
      extract_username "https://www.linkedin.com/in/janedoe/" = String.mk seg ∧
      "https://www.linkedin.com/in/janedoe/".data =
        pre ++ patChars ++ seg ++ suf ∧ seg ≠ [] ∧
      (∀ c ∈ seg, isDelim c = false) ∧
      (suf = [] ∨ ∃ d tl, suf = d :: tl ∧ isDelim d = true) :=
  (C7_extract_username "https://www.linkedin.com/in/janedoe/").2
    ⟨"https://www.".data, "janedoe".data, "/".data, by decide, by decide, by decide⟩

end LinkedIn
